import Mathlib

/-!
Verification development for the envelope-encryption file vault
(`file_vault/key_manager.py`, `file_vault/vault.py`,
`file_vault/integrity_verifier.py`).

Bytes are modelled as `List Nat`.  The cryptographic primitives
(PBKDF2 key derivation, AES-GCM authenticated encryption, HMAC-SHA256)
are modelled as ideal primitives: key derivation is an injective
function of (passphrase, salt, iteration count); an AES-GCM ciphertext
is the plaintext followed by an authentication tag that injectively
binds (key, iv, plaintext), and decryption succeeds exactly on
well-formed ciphertexts under the same key and iv; an HMAC digest is an
injective function of (key, message).  Randomness (salts, ivs, data
keys, key ids) and clock readings are passed as explicit arguments.
-/

/-- Byte strings.  Values are unconstrained naturals; the ideal
authentication tags occupy a single oversized "byte". -/
abbrev Bytes := List Nat

/-- Injective encoding of a byte string into a natural number, used to
build the ideal authentication tags and HMAC digests. -/
def encodeBytes : Bytes → Nat
  | [] => 0
  | b :: l => Nat.pair b (encodeBytes l) + 1

theorem encodeBytes_injective : ∀ a b : Bytes, encodeBytes a = encodeBytes b → a = b := by
  intro a
  induction a with
  | nil =>
    intro b h
    cases b with
    | nil => rfl
    | cons x l => simp [encodeBytes] at h
  | cons x l ih =>
    intro b h
    cases b with
    | nil => simp [encodeBytes] at h
    | cons y m =>
      simp only [encodeBytes, Nat.add_right_cancel_iff] at h
      rcases Nat.pair_eq_pair.mp h with ⟨h1, h2⟩
      rw [h1, ih m h2]

/-- Ideal AES-GCM authentication tag: injectively binds key, iv and
plaintext. -/
def gcmTag (key iv pt : Bytes) : Nat :=
  Nat.pair (encodeBytes key) (Nat.pair (encodeBytes iv) (encodeBytes pt))

theorem gcmTag_inj {k1 i1 p1 k2 i2 p2 : Bytes}
    (h : gcmTag k1 i1 p1 = gcmTag k2 i2 p2) : k1 = k2 ∧ i1 = i2 ∧ p1 = p2 := by
  unfold gcmTag at h
  rcases Nat.pair_eq_pair.mp h with ⟨h1, h2⟩
  rcases Nat.pair_eq_pair.mp h2 with ⟨h3, h4⟩
  exact ⟨encodeBytes_injective _ _ h1, encodeBytes_injective _ _ h3,
    encodeBytes_injective _ _ h4⟩

/-- Ideal model of `AESGCM(key).encrypt(iv, pt, None)`: the ciphertext
is the plaintext followed by the authentication tag. -/
def aesgcmEncrypt (key iv pt : Bytes) : Bytes :=
  pt ++ [gcmTag key iv pt]

/-- Ideal model of `AESGCM(key).decrypt(iv, ct, None)`: strips the tag
and checks it; `none` models the `InvalidTag` exception. -/
def aesgcmDecrypt (key iv ct : Bytes) : Option Bytes :=
  match ct.reverse with
  | [] => none
  | t :: r => if t = gcmTag key iv r.reverse then some r.reverse else none

theorem aesgcmDecrypt_concat (key iv x : Bytes) (t : Nat) :
    aesgcmDecrypt key iv (x ++ [t]) =
      if t = gcmTag key iv x then some x else none := by
  simp [aesgcmDecrypt]

theorem aesgcmDecrypt_encrypt (key iv pt : Bytes) :
    aesgcmDecrypt key iv (aesgcmEncrypt key iv pt) = some pt := by
  simp [aesgcmEncrypt, aesgcmDecrypt_concat]

/-- Decryption succeeds only on exact encryption outputs: completeness
of the ideal authenticated-encryption model. -/
theorem aesgcmDecrypt_eq_some {key iv ct pt : Bytes}
    (h : aesgcmDecrypt key iv ct = some pt) : ct = aesgcmEncrypt key iv pt := by
  unfold aesgcmDecrypt at h
  rcases hrev : ct.reverse with _ | ⟨t, r⟩
  · rw [hrev] at h; simp at h
  · rw [hrev] at h
    by_cases ht : t = gcmTag key iv r.reverse
    · simp [ht] at h
      have hct : ct = r.reverse ++ [t] := by
        have := congrArg List.reverse hrev
        simpa using this
      rw [hct, ht, h]
      rfl
    · simp [ht] at h

/-- Decrypting a wrapped value under a different key always fails. -/
theorem aesgcmDecrypt_wrong_key {key key' iv pt : Bytes}
    (hne : key' ≠ key) :
    aesgcmDecrypt key' iv (aesgcmEncrypt key iv pt) = none := by
  rw [aesgcmEncrypt, aesgcmDecrypt_concat]
  rw [if_neg]
  intro h
  exact hne (gcmTag_inj h).1.symm

/-- Ideal model of the PBKDF2-HMAC-SHA256 master-key derivation
(`KeyManager._derive_key`): a one-"byte" key injectively determined by
passphrase bytes, salt and iteration count. -/
def deriveKey (iterations : Nat) (passphrase salt : Bytes) : Bytes :=
  [Nat.pair (encodeBytes passphrase) (Nat.pair (encodeBytes salt) iterations)]

/-- Ideal model of the HMAC-SHA256 hex digest computed by
`IntegrityVerifier._compute_hmac`: an injective function of key and
message. -/
def hmacOf (key data : Bytes) : Nat :=
  Nat.pair (encodeBytes key) (encodeBytes data)

theorem hmacOf_inj {key d1 d2 : Bytes} (h : hmacOf key d1 = hmacOf key d2) :
    d1 = d2 :=
  encodeBytes_injective _ _ (Nat.pair_eq_pair.mp h).2

/-! ## KeyManager (`key_manager.py`) -/

/-- Configuration slice of `KeyManager.__init__` that the modelled
operations consume.  Randomness lengths are irrelevant because random
values are passed in explicitly. -/
structure KMConfig where
  kdf_iterations : Nat
  iv_length : Nat
  max_versions : Nat
deriving Repr, DecidableEq

/-- One element of the persisted `key_metadata.json` `versions` list:
`MasterKeyMetadata` fields plus the stored salt and the optional
verification token. -/
structure VersionEntry where
  version : Nat
  created_at : Nat
  key_id : Nat
  algorithm : String
  is_active : Bool
  salt : Bytes
  verification_token : Option Bytes
deriving Repr, DecidableEq, Inhabited

/-- The persisted key metadata store (`key_metadata.json`). -/
structure KMMetadata where
  versions : List VersionEntry
  active_version : Option Nat
deriving Repr, DecidableEq

/-- Full KeyManager state: the on-disk metadata plus the in-memory
`_master_keys` cache (version number to key bytes). -/
structure KMState where
  metadata : KMMetadata
  master_keys : List (Nat × Bytes)
deriving Repr, DecidableEq

/-- State before any metadata file exists (`_load_metadata` returns `{}`
and the cache is empty). -/
def KMState.empty : KMState :=
  { metadata := { versions := [], active_version := none }, master_keys := [] }

/-- Lookup in the `_master_keys` dict. -/
def cacheLookup (c : List (Nat × Bytes)) (v : Nat) : Option Bytes :=
  match c.find? (fun p => p.1 == v) with
  | none => none
  | some p => some p.2

/-- Assignment `self._master_keys[version] = key` (dict overwrite). -/
def cacheInsert (c : List (Nat × Bytes)) (v : Nat) (k : Bytes) : List (Nat × Bytes) :=
  (v, k) :: c.filter (fun p => p.1 != v)

/-- `KeyManager._prune_old_versions`: keep only the most recent
`max_versions` entries.  Python's `versions[-m:]` is the whole list
when `m = 0`, so that case keeps everything. -/
def pruneVersions (cfg : KMConfig) (versions : List VersionEntry) : List VersionEntry :=
  if versions.length > cfg.max_versions then
    if cfg.max_versions = 0 then versions
    else versions.drop (versions.length - cfg.max_versions)
  else versions

/-- `KeyManager.initialize`: next version is `len(versions) + 1`, prior
versions are flagged inactive, the new entry (with fresh salt, no
verification token) is appended, the active version is updated, the
derived key is cached, and old versions are pruned. -/
def initKey (cfg : KMConfig) (s : KMState) (passphrase salt : Bytes)
    (key_id now : Nat) : KMState × VersionEntry :=
  let md := s.metadata
  let version := md.versions.length + 1
  let master_key := deriveKey cfg.kdf_iterations passphrase salt
  let keyMeta : VersionEntry :=
    { version := version, created_at := now, key_id := key_id,
      algorithm := "AES-256-GCM", is_active := true, salt := salt,
      verification_token := none }
  let versions1 := md.versions.map (fun v => { v with is_active := false }) ++ [keyMeta]
  let md1 : KMMetadata :=
    { versions := pruneVersions cfg versions1, active_version := some version }
  ({ metadata := md1,
     master_keys := cacheInsert s.master_keys version master_key }, keyMeta)

/-- The fixed plaintext `b"vault_verification_v1"` encrypted into the
stored verification token. -/
def verificationPlaintext : Bytes := "vault_verification_v1".data.map Char.toNat

/-- `KeyManager._store_verification_token`: sets the token on the first
entry whose version matches (the loop `break`s at the first hit). -/
def setTokenFirst : List VersionEntry → Nat → Bytes → List VersionEntry
  | [], _, _ => []
  | e :: r, v, tok =>
    if e.version = v then { e with verification_token := some tok } :: r
    else e :: setTokenFirst r v tok

/-- `KeyManager.unlock`: re-derives a candidate key from the stored
salt; validates it against the stored verification token when one
exists; on the first unlock of a token-less version it caches the
derived key unconditionally and persists a fresh token. -/
def unlockKM (cfg : KMConfig) (s : KMState) (passphrase : Bytes)
    (version? : Option Nat) (tokIv : Bytes) : KMState × Bool :=
  let md := s.metadata
  if md.versions = [] then (s, false)
  else
    let version := version?.getD (md.active_version.getD 1)
    match md.versions.find? (fun x => x.version == version) with
    | none => (s, false)
    | some vd =>
      let master_key := deriveKey cfg.kdf_iterations passphrase vd.salt
      match vd.verification_token with
      | some tok =>
        let iv := tok.take cfg.iv_length
        let ciphertext := tok.drop cfg.iv_length
        match aesgcmDecrypt master_key iv ciphertext with
        | none => (s, false)
        | some _ =>
          ({ s with master_keys := cacheInsert s.master_keys version master_key }, true)
      | none =>
        let combined := tokIv ++ aesgcmEncrypt master_key tokIv verificationPlaintext
        ({ metadata := { md with versions := setTokenFirst md.versions version combined },
           master_keys := cacheInsert s.master_keys version master_key }, true)

/-- The distinct error conditions raised by the vault components. -/
inductive VaultError where
  | keyNotUnlocked (version : Nat)
  | authenticationFailure
  | noActiveKey
  | cannotUnlock
  | headerParse
deriving Repr, DecidableEq

/-- A data key wrapped under a master key version
(`WrappedDataKey` dataclass). -/
structure WrappedDataKey where
  wrapped_key : Bytes
  iv : Bytes
  master_key_version : Nat
  created_at : Nat
deriving Repr, DecidableEq

/-- `KeyManager.generate_data_key`: requires a truthy active version
present in the cache; wraps the fresh data key under the active master
key. -/
def generateDataKey (s : KMState) (data_key iv : Bytes) (now : Nat) :
    Except VaultError (Bytes × WrappedDataKey) :=
  match s.metadata.active_version with
  | none => .error .noActiveKey
  | some av =>
    if av = 0 then .error .noActiveKey
    else
      match cacheLookup s.master_keys av with
      | none => .error .noActiveKey
      | some master_key =>
        .ok (data_key,
          { wrapped_key := aesgcmEncrypt master_key iv data_key, iv := iv,
            master_key_version := av, created_at := now })

/-- `KeyManager.unwrap_data_key`: fails with the KeyNotUnlocked
condition when the referenced version is not in the in-memory cache;
otherwise decrypts the wrapped key. -/
def unwrapDataKey (s : KMState) (w : WrappedDataKey) : Except VaultError Bytes :=
  match cacheLookup s.master_keys w.master_key_version with
  | none => .error (.keyNotUnlocked w.master_key_version)
  | some master_key =>
    match aesgcmDecrypt master_key w.iv w.wrapped_key with
    | none => .error .authenticationFailure
    | some dk => .ok dk

/-- `KeyManager.rotate_master_key`: unlocks the current active version
if needed, then mints a new active version with the new passphrase.
The first component is the state after the call (also on failure,
mirroring the mutation performed before the exception). -/
def rotateMasterKey (cfg : KMConfig) (s : KMState) (oldp newp salt : Bytes)
    (key_id now : Nat) (tokIv : Bytes) :
    KMState × Except VaultError (Option Nat × Nat) :=
  let av? := s.metadata.active_version
  let needUnlock :=
    match av? with
    | none => true
    | some v => (cacheLookup s.master_keys v).isNone
  if needUnlock then
    let r := unlockKM cfg s oldp av? tokIv
    if r.2 then
      let r2 := initKey cfg r.1 newp salt key_id now
      (r2.1, .ok (av?, r2.2.version))
    else (r.1, .error .cannotUnlock)
  else
    let r2 := initKey cfg s newp salt key_id now
    (r2.1, .ok (av?, r2.2.version))

/-- `KeyManager.rewrap_data_key`: unwrap under the referenced version,
re-wrap under the current active master key; the state is only read. -/
def rewrapDataKey (s : KMState) (w : WrappedDataKey) (iv : Bytes) (now : Nat) :
    Except VaultError WrappedDataKey :=
  match unwrapDataKey s w with
  | .error e => .error e
  | .ok dk =>
    match s.metadata.active_version with
    | none => .error .noActiveKey
    | some av =>
      match cacheLookup s.master_keys av with
      | none => .error .noActiveKey
      | some mk =>
        .ok { wrapped_key := aesgcmEncrypt mk iv dk, iv := iv,
              master_key_version := av, created_at := now }

/-! ## Vault file format (`vault.py`) -/

/-- The JSON header line of a vault file, in `encrypt_file`'s field
order. -/
structure VaultHeader where
  format_version : Nat
  original_name : Bytes
  original_size : Nat
  encrypted_at : Nat
  wrapped_key : Bytes
  wrapped_key_iv : Bytes
  master_key_version : Nat
  content_iv : Bytes
deriving Repr, DecidableEq

/-- Manifest entry produced by `encrypt_file` (`VaultEntry` dataclass;
path and hmac bookkeeping omitted). -/
structure VaultEntry where
  original_name : Bytes
  original_size : Nat
  encrypted_at : Nat
  master_key_version : Nat
deriving Repr, DecidableEq

/-- Length-prefixed field encoding used by the canonical header
serialization; every emitted byte is at least 11, so the header region
contains no newline byte (10). -/
def encField (f : Bytes) : Bytes :=
  (f.length + 11) :: f.map (fun b => b + 11)

/-- Canonical injective serialization standing in for
`json.dumps(header).encode("utf-8")`: newline-free UTF-8-like bytes in
the fixed field order of `encrypt_file`. -/
def serializeHeader (h : VaultHeader) : Bytes :=
  encField [h.format_version] ++ encField h.original_name ++
  encField [h.original_size] ++ encField [h.encrypted_at] ++
  encField h.wrapped_key ++ encField h.wrapped_key_iv ++
  encField [h.master_key_version] ++ encField h.content_iv

/-- Field decoder matching `encField`. -/
def decField : Bytes → Option (Bytes × Bytes)
  | [] => none
  | n :: rest =>
    if n < 11 then none
    else
      let len := n - 11
      if rest.length < len then none
      else some ((rest.take len).map (fun b => b - 11), rest.drop len)

/-- Decoder for a single-number field. -/
def decField1 (bs : Bytes) : Option (Nat × Bytes) :=
  match decField bs with
  | some ([x], r) => some (x, r)
  | _ => none

/-- Header parser standing in for `json.loads` on the header line. -/
def parseHeader (bs : Bytes) : Option VaultHeader :=
  match decField1 bs with
  | none => none
  | some (fv, r1) =>
    match decField r1 with
    | none => none
    | some (nm, r2) =>
      match decField1 r2 with
      | none => none
      | some (sz, r3) =>
        match decField1 r3 with
        | none => none
        | some (ea, r4) =>
          match decField r4 with
          | none => none
          | some (wk, r5) =>
            match decField r5 with
            | none => none
            | some (wi, r6) =>
              match decField1 r6 with
              | none => none
              | some (mv, r7) =>
                match decField r7 with
                | none => none
                | some (ci, r8) =>
                  if r8 = [] then
                    some { format_version := fv, original_name := nm,
                           original_size := sz, encrypted_at := ea,
                           wrapped_key := wk, wrapped_key_iv := wi,
                           master_key_version := mv, content_iv := ci }
                  else none

/-- Split a vault file at its first newline byte, mirroring
`raw.index(b"\n")`; `none` models the `ValueError` when no newline
exists. -/
def splitAtNl : Bytes → Option (Bytes × Bytes)
  | [] => none
  | b :: rest =>
    if b = 10 then some ([], rest)
    else
      match splitAtNl rest with
      | none => none
      | some p => some (b :: p.1, p.2)

theorem splitAtNl_append (pre ct : Bytes) (hpre : ∀ x ∈ pre, x ≠ 10) :
    splitAtNl (pre ++ 10 :: ct) = some (pre, ct) := by
  induction pre with
  | nil => simp [splitAtNl]
  | cons b r ih =>
    have hb : b ≠ 10 := hpre b (by simp)
    have hr : ∀ x ∈ r, x ≠ 10 := fun x hx => hpre x (by simp [hx])
    simp [splitAtNl, hb, ih hr]

theorem encField_ge (f : Bytes) : ∀ x ∈ encField f, 11 ≤ x := by
  intro x hx
  rcases List.mem_cons.mp hx with h | h
  · omega
  · rcases List.mem_map.mp h with ⟨b, _, hb⟩
    omega

theorem serializeHeader_no_newline (h : VaultHeader) :
    ∀ x ∈ serializeHeader h, x ≠ 10 := by
  intro x hx
  unfold serializeHeader at hx
  have : 11 ≤ x := by
    simp only [List.mem_append] at hx
    rcases hx with ((((((h1 | h2) | h3) | h4) | h5) | h6) | h7) | h8
    · exact encField_ge _ _ h1
    · exact encField_ge _ _ h2
    · exact encField_ge _ _ h3
    · exact encField_ge _ _ h4
    · exact encField_ge _ _ h5
    · exact encField_ge _ _ h6
    · exact encField_ge _ _ h7
    · exact encField_ge _ _ h8
  omega

theorem decField_encField (f rest : Bytes) :
    decField (encField f ++ rest) = some (f, rest) := by
  have hlen : (f.map (fun b => b + 11) ++ rest).length = f.length + rest.length := by
    simp
  simp only [encField, List.cons_append, decField]
  rw [if_neg (by omega)]
  have hsub : f.length + 11 - 11 = f.length := by omega
  rw [hsub]
  rw [if_neg (by omega)]
  have htake : (f.map (fun b => b + 11) ++ rest).take f.length = f.map (fun b => b + 11) := by
    have : f.length = (f.map (fun b => b + 11)).length := by simp
    rw [this, List.take_left]
  have hdrop : (f.map (fun b => b + 11) ++ rest).drop f.length = rest := by
    have : f.length = (f.map (fun b => b + 11)).length := by simp
    rw [this, List.drop_left]
  rw [htake, hdrop]
  rw [List.map_map]
  have hid : ((fun b => b - 11) ∘ fun b => b + 11) = id := by
    funext b
    simp
  rw [hid, List.map_id]

theorem decField_encField_nil (f : Bytes) : decField (encField f) = some (f, []) := by
  have := decField_encField f []
  simpa using this

theorem decField1_encField (n : Nat) (rest : Bytes) :
    decField1 (encField [n] ++ rest) = some (n, rest) := by
  simp [decField1, decField_encField]

theorem parseHeader_serializeHeader (h : VaultHeader) :
    parseHeader (serializeHeader h) = some h := by
  unfold parseHeader serializeHeader
  simp only [List.append_assoc, decField1_encField, decField_encField,
    decField_encField_nil, if_true]

/-! ## FileVault (`vault.py`) -/

/-- `FileVault.encrypt_file` at the content level: generate and wrap a
data key, encrypt the plaintext, and emit header bytes + newline +
ciphertext together with the manifest entry. -/
def encryptFile (s : KMState) (plaintext name data_key wkIv content_iv : Bytes)
    (now : Nat) : Except VaultError (VaultEntry × Bytes) :=
  match generateDataKey s data_key wkIv now with
  | .error e => .error e
  | .ok (dk, w) =>
    let ciphertext := aesgcmEncrypt dk content_iv plaintext
    let h : VaultHeader :=
      { format_version := 1, original_name := name,
        original_size := plaintext.length, encrypted_at := now,
        wrapped_key := w.wrapped_key, wrapped_key_iv := w.iv,
        master_key_version := w.master_key_version, content_iv := content_iv }
    .ok ({ original_name := name, original_size := plaintext.length,
           encrypted_at := now, master_key_version := w.master_key_version },
         serializeHeader h ++ [10] ++ ciphertext)

/-- `FileVault.decrypt_file` on raw vault-file bytes: split at the
first newline, parse the header, unwrap the data key and decrypt the
ciphertext, returning the recovered plaintext. -/
def decryptFile (s : KMState) (raw : Bytes) : Except VaultError Bytes :=
  match splitAtNl raw with
  | none => .error .headerParse
  | some (hb, ciphertext) =>
    match parseHeader hb with
    | none => .error .headerParse
    | some h =>
      let w : WrappedDataKey :=
        { wrapped_key := h.wrapped_key, iv := h.wrapped_key_iv,
          master_key_version := h.master_key_version, created_at := 0 }
      match unwrapDataKey s w with
      | .error e => .error e
      | .ok dk =>
        match aesgcmDecrypt dk h.content_iv ciphertext with
        | none => .error .authenticationFailure
        | some pt => .ok pt

/-- `FileVault._rewrap_vault_file`: re-wrap the header's embedded data
key under the active master key and rewrite header + newline + the
untouched ciphertext bytes. -/
def rewrapVaultFile (s : KMState) (raw iv : Bytes) (now : Nat) :
    Except VaultError Bytes :=
  match splitAtNl raw with
  | none => .error .headerParse
  | some (hb, ciphertext) =>
    match parseHeader hb with
    | none => .error .headerParse
    | some h =>
      let oldw : WrappedDataKey :=
        { wrapped_key := h.wrapped_key, iv := h.wrapped_key_iv,
          master_key_version := h.master_key_version, created_at := 0 }
      match rewrapDataKey s oldw iv now with
      | .error e => .error e
      | .ok nw =>
        let h2 := { h with wrapped_key := nw.wrapped_key,
                           wrapped_key_iv := nw.iv,
                           master_key_version := nw.master_key_version }
        .ok (serializeHeader h2 ++ [10] ++ ciphertext)

/-- The per-file loop of `FileVault.rotate_keys`: each file carries its
fresh re-wrap iv and timestamp; a per-file failure is caught, leaving
that file unchanged, and the success count is returned. -/
def rewrapAll (s : KMState) : List (Bytes × Bytes × Nat) → List Bytes × Nat
  | [] => ([], 0)
  | f :: rest =>
    let r := rewrapAll s rest
    match rewrapVaultFile s f.1 f.2.1 f.2.2 with
    | .ok raw2 => (raw2 :: r.1, r.2 + 1)
    | .error _ => (f.1 :: r.1, r.2)

/-! ## IntegrityVerifier (`integrity_verifier.py`) -/

/-- Python exceptions that can escape the verifier's methods. -/
inductive PyErr where
  | jsonDecode
  | keyError
  | fileNotFound
deriving Repr, DecidableEq

/-- A value stored under a filename in `integrity.json`: a falsy value
(reported as missing), a truthy value without an `hmac` field (indexing
it raises `KeyError`), or a well-formed record. -/
inductive StoreVal where
  | falsy
  | noHmac
  | entry (hm : Nat) (signed_at : Nat) (file_size : Nat)
deriving Repr, DecidableEq

/-- The sidecar store file: either unparseable JSON (so `_load_store`
raises `JSONDecodeError`) or a parsed map. -/
inductive SidecarStore where
  | corrupt
  | valid (entries : List (String × StoreVal))
deriving Repr, DecidableEq

def lookupStore (es : List (String × StoreVal)) (name : String) : Option StoreVal :=
  match es.find? (fun p => p.1 == name) with
  | none => none
  | some p => some p.2

/-- Dict assignment `store[name] = value`. -/
def storeInsert : List (String × StoreVal) → String → StoreVal → List (String × StoreVal)
  | [], n, v => [(n, v)]
  | p :: r, n, v =>
    if p.1 == n then (n, v) :: r else p :: storeInsert r n v

/-- Status field of an `IntegrityResult`. -/
inductive VStatus where
  | verified
  | tampered
  | missing
  | ioError
deriving Repr, DecidableEq

/-- Result record of `IntegrityVerifier.verify_file`. -/
structure IntegrityResult where
  original_name : Option Bytes
  status : VStatus
  stored_hmac : Option Nat
  computed_hmac : Option Nat
  detail : String
deriving Repr, DecidableEq

/-- `IntegrityVerifier.verify_file` for a file `name` whose on-disk
content is `content` (`none` when the file is absent).  The unguarded
`_load_store()` call propagates a `JSONDecodeError` on a corrupt store,
and `stored["hmac"]` raises `KeyError` on a truthy entry without an
`hmac` field. -/
def verifyFile (key : Bytes) (store : SidecarStore) (name : String)
    (content : Option Bytes) : Except PyErr IntegrityResult :=
  let oname : Option Bytes :=
    match content with
    | none => none
    | some c =>
      match splitAtNl c with
      | none => none
      | some p =>
        match parseHeader p.1 with
        | none => none
        | some h => some h.original_name
  match content with
  | none =>
    .ok { original_name := oname, status := .missing, stored_hmac := none,
          computed_hmac := none, detail := "Vault file not found on disk" }
  | some c =>
    match store with
    | .corrupt => .error .jsonDecode
    | .valid es =>
      match lookupStore es name with
      | none =>
        .ok { original_name := oname, status := .missing, stored_hmac := none,
              computed_hmac := none, detail := "No stored HMAC found" }
      | some .falsy =>
        .ok { original_name := oname, status := .missing, stored_hmac := none,
              computed_hmac := none, detail := "No stored HMAC found" }
      | some .noHmac => .error .keyError
      | some (.entry hm _ _) =>
        let comp := hmacOf key c
        if hm = comp then
          .ok { original_name := oname, status := .verified,
                stored_hmac := some hm, computed_hmac := some comp,
                detail := "File integrity confirmed" }
        else
          .ok { original_name := oname, status := .tampered,
                stored_hmac := some hm, computed_hmac := some comp,
                detail := "INTEGRITY VIOLATION" }

/-- `IntegrityVerifier.sign_file`: raises `FileNotFoundError` when the
path is not a regular file, loads the store (propagating a parse
failure), then records the fresh HMAC. -/
def signFile (key : Bytes) (store : SidecarStore) (name : String)
    (content : Option Bytes) (now : Nat) : Except PyErr (SidecarStore × Nat) :=
  match content with
  | none => .error .fileNotFound
  | some c =>
    match store with
    | .corrupt => .error .jsonDecode
    | .valid es =>
      let hm := hmacOf key c
      .ok (.valid (storeInsert es name (.entry hm now c.length)), hm)

/-- Test for the `.vault` filename suffix used by `resign_all`. -/
def isVaultName (n : String) : Bool :=
  ".vault".data.isSuffixOf n.data

/-- `IntegrityVerifier.resign_all` over a directory listing of
(name, content) pairs: signs every `.vault` entry; a `sign_file`
exception propagates immediately (there is no per-file handler). -/
def resignAll (key : Bytes) (store : SidecarStore) (now : Nat) :
    List (String × Option Bytes) → Except PyErr (SidecarStore × Nat)
  | [] => .ok (store, 0)
  | (n, c) :: rest =>
    if isVaultName n then
      match signFile key store n c now with
      | .error e => .error e
      | .ok (store1, _) =>
        match resignAll key store1 now rest with
        | .error e => .error e
        | .ok (store2, cnt) => .ok (store2, cnt + 1)
    else resignAll key store now rest

deriving instance DecidableEq for Except

/-! ## Helper lemmas -/

theorem cacheLookup_insert_self (c : List (Nat × Bytes)) (v : Nat) (k : Bytes) :
    cacheLookup (cacheInsert c v k) v = some k := by
  simp [cacheLookup, cacheInsert, List.find?]

theorem find?_filter_ne (c : List (Nat × Bytes)) (v w : Nat) (hne : w ≠ v) :
    (c.filter (fun p => p.1 != v)).find? (fun p => p.1 == w) =
      c.find? (fun p => p.1 == w) := by
  induction c with
  | nil => rfl
  | cons p r ih =>
    by_cases hpv : p.1 = v
    · have h1 : (p.1 != v) = false := by simp [hpv]
      have h2 : (p.1 == w) = false := by
        simp [hpv]
        omega
      simp [List.filter, h1, List.find?, h2, ih]
    · have h1 : (p.1 != v) = true := by simp [hpv]
      by_cases hpw : p.1 = w
      · have h3 : (p.1 == w) = true := by simp [hpw]
        simp [List.filter, List.find?, h1, h3]
      · have h2 : (p.1 == w) = false := by simp [hpw]
        simp [List.filter, List.find?, h1, h2, ih]

theorem cacheLookup_insert_ne (c : List (Nat × Bytes)) (v w : Nat) (k : Bytes)
    (hne : w ≠ v) : cacheLookup (cacheInsert c v k) w = cacheLookup c w := by
  have h2 : ((v, k).1 == w) = false := by
    simp
    omega
  simp only [cacheLookup, cacheInsert, List.find?, h2]
  rw [find?_filter_ne c v w hne]

theorem get?_append_right (l1 l2 : Bytes) (i : Nat) (h : l1.length ≤ i) :
    (l1 ++ l2).get? i = l2.get? (i - l1.length) := by
  induction l1 generalizing i with
  | nil => simp
  | cons x r ih =>
    cases i with
    | zero => simp at h
    | succ j =>
      have h' : r.length ≤ j := by simpa using h
      calc ((x :: r) ++ l2).get? (j + 1) = (r ++ l2).get? j := rfl
        _ = l2.get? (j - r.length) := ih j h'
        _ = l2.get? (j + 1 - (x :: r).length) := by
            congr 1
            simp only [List.length_cons]
            omega

theorem get?_some_lt {l : Bytes} {i : Nat} {a : Nat} (h : l.get? i = some a) :
    i < l.length := by
  induction l generalizing i with
  | nil => simp [List.get?] at h
  | cons x r ih =>
    cases i with
    | zero => simp
    | succ j =>
      simp only [List.get?] at h
      have := ih h
      simp
      omega

theorem set_append_right (l1 l2 : Bytes) (i : Nat) (b : Nat) (h : l1.length ≤ i) :
    (l1 ++ l2).set i b = l1 ++ l2.set (i - l1.length) b := by
  induction l1 generalizing i with
  | nil => simp
  | cons x r ih =>
    cases i with
    | zero => simp at h
    | succ j =>
      have h' : r.length ≤ j := by simpa using h
      calc ((x :: r) ++ l2).set (j + 1) b = x :: (r ++ l2).set j b := rfl
        _ = x :: (r ++ l2.set (j - r.length) b) := by rw [ih j h']
        _ = (x :: r) ++ l2.set (j + 1 - (x :: r).length) b := by
            simp only [List.cons_append, List.length_cons]
            congr 3
            omega

theorem set_append_left (l1 l2 : Bytes) (i : Nat) (b : Nat) (h : i < l1.length) :
    (l1 ++ l2).set i b = l1.set i b ++ l2 := by
  induction l1 generalizing i with
  | nil => simp at h
  | cons x r ih =>
    cases i with
    | zero => simp
    | succ j =>
      have h' : j < r.length := by simpa using h
      calc ((x :: r) ++ l2).set (j + 1) b = x :: (r ++ l2).set j b := rfl
        _ = x :: (r.set j b ++ l2) := by rw [ih j h']
        _ = (x :: r).set (j + 1) b ++ l2 := rfl

theorem get?_set_self (l : Bytes) (i : Nat) (b : Nat) (h : i < l.length) :
    (l.set i b).get? i = some b := by
  induction l generalizing i with
  | nil => simp at h
  | cons x r ih =>
    cases i with
    | zero => rfl
    | succ j => exact ih j (by simpa using h)

theorem set_ne_of_get? {l : Bytes} {i a b : Nat}
    (ha : l.get? i = some a) (hb : b ≠ a) : l.set i b ≠ l := by
  intro heq
  have h1 : (l.set i b).get? i = some b :=
    get?_set_self l i b (get?_some_lt ha)
  rw [heq, ha] at h1
  exact hb (Option.some_injective _ h1).symm

/-! ## Claims -/

/-- C1: with the active master key version unlocked, `decrypt_file`
applied to the vault file produced by `encrypt_file(F)` recovers
exactly F's original bytes. -/
theorem C1_encrypt_decrypt_roundtrip (s : KMState) (av : Nat)
    (mk pt name dk wkIv civ : Bytes) (now : Nat)
    (h1 : s.metadata.active_version = some av)
    (h2 : av ≠ 0)
    (h3 : cacheLookup s.master_keys av = some mk) :
    ∃ e raw, encryptFile s pt name dk wkIv civ now = .ok (e, raw) ∧
      decryptFile s raw = .ok pt := by
  have hgen : generateDataKey s dk wkIv now = .ok (dk,
      { wrapped_key := aesgcmEncrypt mk wkIv dk, iv := wkIv,
        master_key_version := av, created_at := now }) := by
    simp [generateDataKey, h1, h2, h3]
  refine ⟨{ original_name := name, original_size := pt.length,
            encrypted_at := now, master_key_version := av },
    serializeHeader
      { format_version := 1, original_name := name,
        original_size := pt.length, encrypted_at := now,
        wrapped_key := aesgcmEncrypt mk wkIv dk, wrapped_key_iv := wkIv,
        master_key_version := av, content_iv := civ } ++ [10] ++
      aesgcmEncrypt dk civ pt, ?_, ?_⟩
  · simp [encryptFile, hgen]
  · have hsplit : splitAtNl (serializeHeader
        { format_version := 1, original_name := name,
          original_size := pt.length, encrypted_at := now,
          wrapped_key := aesgcmEncrypt mk wkIv dk, wrapped_key_iv := wkIv,
          master_key_version := av, content_iv := civ } ++
        10 :: aesgcmEncrypt dk civ pt) = some (serializeHeader
        { format_version := 1, original_name := name,
          original_size := pt.length, encrypted_at := now,
          wrapped_key := aesgcmEncrypt mk wkIv dk, wrapped_key_iv := wkIv,
          master_key_version := av, content_iv := civ },
        aesgcmEncrypt dk civ pt) :=
      splitAtNl_append _ _ (serializeHeader_no_newline _)
    have hunwrap : unwrapDataKey s
        { wrapped_key := aesgcmEncrypt mk wkIv dk, iv := wkIv,
          master_key_version := av, created_at := 0 } = .ok dk := by
      simp [unwrapDataKey, h3, aesgcmDecrypt_encrypt]
    simp [decryptFile, hsplit, parseHeader_serializeHeader, hunwrap,
      aesgcmDecrypt_encrypt]

/-- Shared concrete configuration for witnesses. -/
def cfgW : KMConfig := { kdf_iterations := 7, iv_length := 0, max_versions := 5 }

/-- Shared concrete KeyManager state: one `initialize` on an empty
store. -/
def sW : KMState := (initKey cfgW KMState.empty [1] [] 2 3).1

/-- The master key cached by that `initialize`. -/
def mkW : Bytes := deriveKey 7 [1] []

/-- Witness for C1 at a concrete state and file. -/
theorem C1_encrypt_decrypt_roundtrip_witness :
    ∃ e raw, encryptFile sW [104, 105] [97] [5] [] [] 9 = .ok (e, raw) ∧
      decryptFile sW raw = .ok [104, 105] :=
  C1_encrypt_decrypt_roundtrip sW 1 mkW [104, 105] [97] [5] [] [] 9
    (by decide) (by decide) (by decide)

/-- C4: `unwrap_data_key` fails with the KeyNotUnlocked condition
exactly when the referenced master version is absent from the in-memory
cache, and returns the decrypted data key when the version is unlocked
and the wrapped key was wrapped under the cached key. -/
theorem C4_unwrap_key_isolation (s : KMState) (w : WrappedDataKey) :
    (cacheLookup s.master_keys w.master_key_version = none →
      unwrapDataKey s w = .error (.keyNotUnlocked w.master_key_version)) ∧
    (∀ mk dk, cacheLookup s.master_keys w.master_key_version = some mk →
      w.wrapped_key = aesgcmEncrypt mk w.iv dk →
      unwrapDataKey s w = .ok dk) := by
  constructor
  · intro h
    simp [unwrapDataKey, h]
  · intro mk dk h hw
    simp [unwrapDataKey, h, hw, aesgcmDecrypt_encrypt]

/-- Witness for C4: a never-unlocked version fails, an unlocked one
unwraps. -/
theorem C4_unwrap_key_isolation_witness :
    unwrapDataKey KMState.empty
      { wrapped_key := [0], iv := [], master_key_version := 3,
        created_at := 0 } = .error (.keyNotUnlocked 3) ∧
    unwrapDataKey sW
      { wrapped_key := aesgcmEncrypt mkW [] [5], iv := [],
        master_key_version := 1, created_at := 0 } = .ok [5] :=
  ⟨(C4_unwrap_key_isolation KMState.empty _).1 (by decide),
   (C4_unwrap_key_isolation sW _).2 mkW [5] (by decide) (by decide)⟩

/-- C10: when a stored version has no verification token, `unlock`
succeeds for every passphrase, caches the key derived from that
passphrase, and persists a verification token computed under the
derived key. -/
theorem C10_first_unlock_accepts_any_passphrase (cfg : KMConfig)
    (s : KMState) (p tokIv : Bytes) (v : Nat) (e : VersionEntry)
    (hfind : s.metadata.versions.find? (fun x => x.version == v) = some e)
    (htok : e.verification_token = none) :
    unlockKM cfg s p (some v) tokIv =
      ({ metadata :=
           { s.metadata with
             versions := setTokenFirst s.metadata.versions v
               (tokIv ++ aesgcmEncrypt (deriveKey cfg.kdf_iterations p e.salt)
                 tokIv verificationPlaintext) },
         master_keys := cacheInsert s.master_keys v
           (deriveKey cfg.kdf_iterations p e.salt) }, true) := by
  have hne : s.metadata.versions ≠ [] := by
    intro h0
    rw [h0] at hfind
    simp [List.find?] at hfind
  simp [unlockKM, hne, hfind, htok]

/-- Witness for C10: the single version of `sW` has no token yet, and
an arbitrary wrong passphrase `[42]` unlocks it. -/
theorem C10_first_unlock_accepts_any_passphrase_witness :
    unlockKM cfgW sW [42] (some 1) [] =
      ({ metadata :=
           { sW.metadata with
             versions := setTokenFirst sW.metadata.versions 1
               ([] ++ aesgcmEncrypt (deriveKey cfgW.kdf_iterations [42]
                 (sW.metadata.versions.headI).salt) [] verificationPlaintext) },
         master_keys := cacheInsert sW.master_keys 1
           (deriveKey cfgW.kdf_iterations [42]
             (sW.metadata.versions.headI).salt) }, true) :=
  C10_first_unlock_accepts_any_passphrase cfgW sW [42] [] 1
    sW.metadata.versions.headI (by decide) (by decide)

/-- Concrete configuration exhibiting the pruning interaction:
`max_versions = 1`. -/
def cfgP : KMConfig := { kdf_iterations := 7, iv_length := 0, max_versions := 1 }

/-- C5 (failing input): with `max_versions = 1`, the second
`initialize` records version 2 as the only stored entry, and a third
`initialize` computes `len(versions) + 1 = 2` again — a version number
equal to one already recorded, contradicting strict monotonicity. -/
theorem C5_version_reuse_after_pruning :
    ((initKey cfgP (initKey cfgP KMState.empty [1] [] 0 0).1 [1] []
        0 0).1.metadata.versions.map (fun e => e.version) = [2]) ∧
    ((initKey cfgP (initKey cfgP (initKey cfgP KMState.empty [1] [] 0 0).1
        [1] [] 0 0).1 [1] [] 0 0).2.version = 2) := by
  decide

/-- C2: re-wrapping a vault file after rotation leaves the ciphertext
region byte-identical and the data key value unchanged (only
wrapped_key, wrapped_key_iv and master_key_version in the header
change), and the file still decrypts to its original content in the
post-rotation state. -/
theorem C2_rotation_preserves_ciphertext (s1 : KMState) (h : VaultHeader)
    (vOld vNew : Nat) (mkOld mkNew dk pt iv : Bytes) (now : Nat)
    (hact : s1.metadata.active_version = some vNew)
    (hnew : cacheLookup s1.master_keys vNew = some mkNew)
    (hold : cacheLookup s1.master_keys vOld = some mkOld)
    (hver : h.master_key_version = vOld)
    (hwrap : h.wrapped_key = aesgcmEncrypt mkOld h.wrapped_key_iv dk) :
    rewrapVaultFile s1
        (serializeHeader h ++ 10 :: aesgcmEncrypt dk h.content_iv pt) iv now =
      .ok (serializeHeader
        { h with wrapped_key := aesgcmEncrypt mkNew iv dk,
                 wrapped_key_iv := iv, master_key_version := vNew } ++
        10 :: aesgcmEncrypt dk h.content_iv pt) ∧
    decryptFile s1 (serializeHeader
        { h with wrapped_key := aesgcmEncrypt mkNew iv dk,
                 wrapped_key_iv := iv, master_key_version := vNew } ++
        10 :: aesgcmEncrypt dk h.content_iv pt) = .ok pt := by
  have hun : unwrapDataKey s1
      { wrapped_key := h.wrapped_key, iv := h.wrapped_key_iv,
        master_key_version := h.master_key_version, created_at := 0 } =
      .ok dk := by
    simp [unwrapDataKey, hver, hold, hwrap, aesgcmDecrypt_encrypt]
  constructor
  · have hsplit : splitAtNl
        (serializeHeader h ++ 10 :: aesgcmEncrypt dk h.content_iv pt) =
        some (serializeHeader h, aesgcmEncrypt dk h.content_iv pt) :=
      splitAtNl_append _ _ (serializeHeader_no_newline _)
    have hrw : rewrapDataKey s1
        { wrapped_key := h.wrapped_key, iv := h.wrapped_key_iv,
          master_key_version := h.master_key_version, created_at := 0 }
        iv now =
        .ok { wrapped_key := aesgcmEncrypt mkNew iv dk, iv := iv,
              master_key_version := vNew, created_at := now } := by
      simp [rewrapDataKey, hun, hact, hnew]
    simp [rewrapVaultFile, hsplit, parseHeader_serializeHeader, hrw]
  · have hsplit2 : splitAtNl (serializeHeader
        { h with wrapped_key := aesgcmEncrypt mkNew iv dk,
                 wrapped_key_iv := iv, master_key_version := vNew } ++
        10 :: aesgcmEncrypt dk h.content_iv pt) =
        some (serializeHeader
          { h with wrapped_key := aesgcmEncrypt mkNew iv dk,
                   wrapped_key_iv := iv, master_key_version := vNew },
          aesgcmEncrypt dk h.content_iv pt) :=
      splitAtNl_append _ _ (serializeHeader_no_newline _)
    have hun2 : unwrapDataKey s1
        { wrapped_key := aesgcmEncrypt mkNew iv dk, iv := iv,
          master_key_version := vNew, created_at := 0 } = .ok dk := by
      simp [unwrapDataKey, hnew, aesgcmDecrypt_encrypt]
    simp [decryptFile, hsplit2, parseHeader_serializeHeader, hun2,
      aesgcmDecrypt_encrypt]

/-- Second concrete state for witnesses: a rotation-style second
`initialize` on top of `sW`, leaving versions 1 and 2 both cached. -/
def s2W : KMState := (initKey cfgW sW [2] [7] 4 5).1

/-- The master key cached by the second `initialize`. -/
def mk2W : Bytes := deriveKey 7 [2] [7]

/-- Header of a concrete vault file written under version 1. -/
def hdrW : VaultHeader :=
  { format_version := 1, original_name := [97], original_size := 1,
    encrypted_at := 0, wrapped_key := aesgcmEncrypt mkW [] [5],
    wrapped_key_iv := [], master_key_version := 1, content_iv := [] }

/-- Witness for C2 at a concrete post-rotation state and vault file. -/
theorem C2_rotation_preserves_ciphertext_witness :
    rewrapVaultFile s2W
        (serializeHeader hdrW ++ 10 :: aesgcmEncrypt [5] hdrW.content_iv [7])
        [9] 6 =
      .ok (serializeHeader
        { hdrW with wrapped_key := aesgcmEncrypt mk2W [9] [5],
                    wrapped_key_iv := [9], master_key_version := 2 } ++
        10 :: aesgcmEncrypt [5] hdrW.content_iv [7]) ∧
    decryptFile s2W (serializeHeader
        { hdrW with wrapped_key := aesgcmEncrypt mk2W [9] [5],
                    wrapped_key_iv := [9], master_key_version := 2 } ++
        10 :: aesgcmEncrypt [5] hdrW.content_iv [7]) = .ok [7] :=
  C2_rotation_preserves_ciphertext s2W hdrW 1 2 mkW mk2W [5] [7] [9] 6
    (by decide) (by decide) (by decide) (by decide) (by decide)

theorem get?_append_left (l1 l2 : Bytes) (i : Nat) (h : i < l1.length) :
    (l1 ++ l2).get? i = l1.get? i := by
  induction l1 generalizing i with
  | nil => simp at h
  | cons x r ih =>
    cases i with
    | zero => rfl
    | succ j => exact ih j (by simpa using h)

/-- A single-byte modification of a well-formed ciphertext never
decrypts: either a plaintext byte changed (the tag no longer matches)
or the tag byte changed (it no longer matches the plaintext). -/
theorem aesgcmDecrypt_set_ne (key iv pt : Bytes) (j a b : Nat)
    (hget : (aesgcmEncrypt key iv pt).get? j = some a) (hb : b ≠ a) :
    aesgcmDecrypt key iv ((aesgcmEncrypt key iv pt).set j b) = none := by
  have hlt : j < pt.length + 1 := by
    have := get?_some_lt hget
    simpa [aesgcmEncrypt] using this
  rcases Nat.lt_or_ge j pt.length with hj | hj
  · have hset : (aesgcmEncrypt key iv pt).set j b =
        pt.set j b ++ [gcmTag key iv pt] := by
      rw [aesgcmEncrypt, set_append_left _ _ _ _ hj]
    have hgetpt : pt.get? j = some a := by
      rw [aesgcmEncrypt, get?_append_left _ _ _ hj] at hget
      exact hget
    rw [hset, aesgcmDecrypt_concat, if_neg]
    intro heq
    have := (gcmTag_inj heq).2.2
    exact set_ne_of_get? hgetpt hb this.symm
  · have hj' : j = pt.length := by omega
    have hset : (aesgcmEncrypt key iv pt).set j b = pt ++ [b] := by
      rw [aesgcmEncrypt, set_append_right _ _ _ _ (by omega), hj']
      simp
    have ha : a = gcmTag key iv pt := by
      rw [aesgcmEncrypt, get?_append_right _ _ _ (by omega), hj'] at hget
      simp [List.get?] at hget
      exact hget.symm
    rw [hset, aesgcmDecrypt_concat, if_neg]
    rw [ha] at hb
    exact hb

/-- When the stored entry's hmac does not match the recomputed one,
`verify_file` reports tampered. -/
theorem verifyFile_entry_mismatch (key : Bytes) (es : List (String × StoreVal))
    (name : String) (c : Bytes) (hm sa sz : Nat)
    (hstore : lookupStore es name = some (.entry hm sa sz))
    (hne : hm ≠ hmacOf key c) :
    verifyFile key (.valid es) name (some c) = .ok
      { original_name :=
          (match splitAtNl c with
           | none => none
           | some p =>
             match parseHeader p.1 with
             | none => none
             | some hh => some hh.original_name),
        status := .tampered, stored_hmac := some hm,
        computed_hmac := some (hmacOf key c),
        detail := "INTEGRITY VIOLATION" } := by
  simp [verifyFile, hstore, hne]

/-- C3: flipping any single byte of a signed vault file makes
`verify_file` report tampered, and when the flipped byte lies in the
ciphertext region (after the header newline), `decrypt_file` cannot
succeed in any KeyManager state: the authentication tag check fails. -/
theorem C3_tamper_detection (key : Bytes) (es : List (String × StoreVal))
    (name : String) (s : KMState) (h : VaultHeader) (mk dk pt raw : Bytes)
    (i a b sa sz : Nat)
    (hraw : raw = serializeHeader h ++ 10 :: aesgcmEncrypt dk h.content_iv pt)
    (hwrap : h.wrapped_key = aesgcmEncrypt mk h.wrapped_key_iv dk)
    (hstore : lookupStore es name = some (.entry (hmacOf key raw) sa sz))
    (hget : raw.get? i = some a)
    (hb : b ≠ a) :
    (∃ r, verifyFile key (.valid es) name (some (raw.set i b)) = .ok r ∧
      r.status = .tampered) ∧
    ((serializeHeader h).length + 1 ≤ i →
      ∀ pt', decryptFile s (raw.set i b) ≠ .ok pt') := by
  have hsetne : raw.set i b ≠ raw := set_ne_of_get? hget hb
  constructor
  · have hne : hmacOf key raw ≠ hmacOf key (raw.set i b) := by
      intro heq
      exact hsetne (hmacOf_inj heq).symm
    exact ⟨_, verifyFile_entry_mismatch key es name _ _ sa sz hstore hne, rfl⟩
  · intro hi pt' hok
    have hform : raw.set i b = serializeHeader h ++
        10 :: (aesgcmEncrypt dk h.content_iv pt).set
          (i - ((serializeHeader h).length + 1)) b := by
      rw [hraw]
      have h1 : serializeHeader h ++ 10 :: aesgcmEncrypt dk h.content_iv pt =
          (serializeHeader h ++ [10]) ++ aesgcmEncrypt dk h.content_iv pt := by
        simp
      rw [h1, set_append_right _ _ _ _ (by simp; omega)]
      simp
    have hgetct : (aesgcmEncrypt dk h.content_iv pt).get?
        (i - ((serializeHeader h).length + 1)) = some a := by
      rw [hraw] at hget
      have h1 : serializeHeader h ++ 10 :: aesgcmEncrypt dk h.content_iv pt =
          (serializeHeader h ++ [10]) ++ aesgcmEncrypt dk h.content_iv pt := by
        simp
      rw [h1, get?_append_right _ _ _ (by simp; omega)] at hget
      simpa using hget
    have hctnone : aesgcmDecrypt dk h.content_iv
        ((aesgcmEncrypt dk h.content_iv pt).set
          (i - ((serializeHeader h).length + 1)) b) = none :=
      aesgcmDecrypt_set_ne dk h.content_iv pt _ a b hgetct hb
    have hsplit : splitAtNl (serializeHeader h ++
        10 :: (aesgcmEncrypt dk h.content_iv pt).set
          (i - ((serializeHeader h).length + 1)) b) =
        some (serializeHeader h,
          (aesgcmEncrypt dk h.content_iv pt).set
            (i - ((serializeHeader h).length + 1)) b) :=
      splitAtNl_append _ _ (serializeHeader_no_newline _)
    rw [hform] at hok
    simp only [decryptFile, hsplit, parseHeader_serializeHeader] at hok
    rcases hcl : cacheLookup s.master_keys h.master_key_version with _ | k
    · simp only [unwrapDataKey, hcl] at hok
      exact Except.noConfusion hok
    · by_cases hk : k = mk
      · subst hk
        simp only [unwrapDataKey, hcl, hwrap, aesgcmDecrypt_encrypt] at hok
        simp only [hctnone] at hok
        exact Except.noConfusion hok
      · simp only [unwrapDataKey, hcl, hwrap,
          aesgcmDecrypt_wrong_key hk] at hok
        exact Except.noConfusion hok

/-- A minimal well-formed vault header (empty keys and ivs, empty
plaintext) used by the C3 witness. -/
def hdr3 : VaultHeader :=
  { format_version := 1, original_name := [], original_size := 0,
    encrypted_at := 0, wrapped_key := aesgcmEncrypt [] [] [],
    wrapped_key_iv := [], master_key_version := 1, content_iv := [] }

/-- The corresponding vault file bytes. -/
def raw3 : Bytes := serializeHeader hdr3 ++ 10 :: aesgcmEncrypt [] [] []

/-- Witness for C3: flipping the final ciphertext byte of a concrete
signed vault file. -/
theorem C3_tamper_detection_witness :
    (∃ r, verifyFile [3] (.valid [("a", .entry (hmacOf [3] raw3) 0 0)]) "a"
        (some (raw3.set 14 1)) = .ok r ∧ r.status = .tampered) ∧
    ((serializeHeader hdr3).length + 1 ≤ 14 →
      ∀ pt', decryptFile KMState.empty (raw3.set 14 1) ≠ .ok pt') :=
  C3_tamper_detection [3] [("a", .entry (hmacOf [3] raw3) 0 0)] "a"
    KMState.empty hdr3 [] [] [] raw3 14 (gcmTag [] [] []) 1 0 0
    (by decide) (by decide) (by decide) (by decide) (by decide)

def isOkResult {e a : Type} (r : Except e a) : Bool :=
  match r with
  | .ok _ => true
  | .error _ => false

/-- C8 (counterexample): `resign_all` with a first `.vault` directory
entry that is not a regular file propagates `FileNotFoundError` and
never signs the healthy second file — it does not return an aggregate
success count. -/
theorem C8_counterexample_resign_aborts :
    resignAll [3] (.valid []) 0 [("a.vault", none), ("b.vault", some [1])] =
      .error .fileNotFound := by
  decide

/-- C8 (amended): the per-file loop of `rotate_keys` is best-effort —
failed files are left unchanged and the success count is returned —
while `resign_all` propagates the first per-file `sign_file` error and
aborts. -/
theorem C8_rotate_best_effort_resign_all_aborts (s : KMState) (key : Bytes)
    (now : Nat) :
    (∀ files : List (Bytes × Bytes × Nat),
      (rewrapAll s files).1 = files.map (fun f =>
        match rewrapVaultFile s f.1 f.2.1 f.2.2 with
        | .ok r2 => r2
        | .error _ => f.1) ∧
      (rewrapAll s files).2 = (files.filter (fun f =>
        isOkResult (rewrapVaultFile s f.1 f.2.1 f.2.2))).length) ∧
    (∀ (pre : List (String × Option Bytes)) (es : List (String × StoreVal))
      (nm : String) (rest : List (String × Option Bytes)),
      isVaultName nm = true →
      (∀ p ∈ pre, isVaultName p.1 = true → p.2 ≠ none) →
      resignAll key (.valid es) now (pre ++ (nm, none) :: rest) =
        .error .fileNotFound) := by
  constructor
  · intro files
    induction files with
    | nil => exact ⟨rfl, rfl⟩
    | cons f rest ih =>
      rcases hr : rewrapVaultFile s f.1 f.2.1 f.2.2 with e | r2 <;>
        constructor <;>
          simp [rewrapAll, hr, ih.1, ih.2, List.filter, isOkResult]
  · intro pre
    induction pre with
    | nil =>
      intro es nm rest hnm _
      simp [resignAll, hnm, signFile]
    | cons p pre' ih =>
      intro es nm rest hnm hpre
      rcases p with ⟨n, c⟩
      by_cases hn : isVaultName n
      · have hc : c ≠ none := hpre (n, c) (by simp) hn
        rcases c with _ | c'
        · exact absurd rfl hc
        · have hsign : signFile key (.valid es) n (some c') now =
              .ok (.valid (storeInsert es n
                (.entry (hmacOf key c') now c'.length)), hmacOf key c') := rfl
          have hrest := ih (storeInsert es n
              (.entry (hmacOf key c') now c'.length)) nm rest hnm
            (fun q hq => hpre q (by simp [hq]))
          simp [resignAll, hn, hsign, hrest]
      · have hrest := ih es nm rest hnm
          (fun q hq => hpre q (by simp [hq]))
        simp [resignAll, hn, hrest]

/-- Witness for C8: a concrete rotation loop over one failing and one
healthy file, and a concrete aborting `resign_all`. -/
theorem C8_rotate_best_effort_resign_all_aborts_witness :
    ((rewrapAll sW [([1, 2], [], 0), (raw3, [], 0)]).1 =
      [([1, 2], [], (0 : Nat)), (raw3, [], 0)].map (fun f =>
        match rewrapVaultFile sW f.1 f.2.1 f.2.2 with
        | .ok r2 => r2
        | .error _ => f.1) ∧
      (rewrapAll sW [([1, 2], [], 0), (raw3, [], 0)]).2 =
        ([([1, 2], [], (0 : Nat)), (raw3, [], 0)].filter (fun f =>
          isOkResult (rewrapVaultFile sW f.1 f.2.1 f.2.2))).length) ∧
    resignAll [3] (.valid []) 0 [("x.vault", none)] = .error .fileNotFound :=
  ⟨(C8_rotate_best_effort_resign_all_aborts sW [3] 0).1
      [([1, 2], [], 0), (raw3, [], 0)],
   (C8_rotate_best_effort_resign_all_aborts sW [3] 0).2 [] [] "x.vault" []
      (by decide) (by intro p hp; simp at hp)⟩

/-- C9 (counterexample): with the vault file present, an unparseable
sidecar store makes `verify_file` raise `JSONDecodeError`, and a truthy
entry without an `hmac` field makes it raise `KeyError` — neither is
reported as status missing. -/
theorem C9_counterexample_crash_on_corrupt_store :
    verifyFile [3] .corrupt "a" (some [1]) = .error .jsonDecode ∧
    verifyFile [3] (.valid [("a", .noHmac)]) "a" (some [1]) =
      .error .keyError := by
  decide

/-- The missing-status result record returned by `verify_file`. -/
def missingResult (c : Bytes) : IntegrityResult :=
  { original_name :=
      (match splitAtNl c with
       | none => none
       | some p =>
         match parseHeader p.1 with
         | none => none
         | some hh => some hh.original_name),
    status := .missing, stored_hmac := none, computed_hmac := none,
    detail := "No stored HMAC found" }

/-- C9 (amended): an absent or falsy sidecar entry is reported as
status missing, while an unparseable store or a truthy entry lacking
the `hmac` field raises an exception that propagates to the caller. -/
theorem C9_corrupt_sidecar_semantics (k : Bytes) (name : String) (c : Bytes)
    (es : List (String × StoreVal)) :
    (verifyFile k .corrupt name (some c) = .error .jsonDecode) ∧
    (lookupStore es name = some .noHmac →
      verifyFile k (.valid es) name (some c) = .error .keyError) ∧
    ((lookupStore es name = none ∨ lookupStore es name = some .falsy) →
      ∃ r, verifyFile k (.valid es) name (some c) = .ok r ∧
        r.status = .missing) := by
  refine ⟨rfl, ?_, ?_⟩
  · intro hl
    simp [verifyFile, hl]
  · intro hl
    rcases hl with hl | hl <;>
      exact ⟨missingResult c, by simp [verifyFile, missingResult, hl], rfl⟩

/-- Witness for C9's amended statement at concrete stores. -/
theorem C9_corrupt_sidecar_semantics_witness :
    (verifyFile [3] .corrupt "a" (some [1, 2]) = .error .jsonDecode) ∧
    (verifyFile [3] (.valid [("b", .noHmac)]) "b" (some [1, 2]) =
      .error .keyError) ∧
    (∃ r, verifyFile [3] (.valid []) "c" (some [1, 2]) = .ok r ∧
      r.status = .missing) :=
  ⟨(C9_corrupt_sidecar_semantics [3] "a" [1, 2] []).1,
   (C9_corrupt_sidecar_semantics [3] "b" [1, 2] [("b", .noHmac)]).2.1
      (by decide),
   (C9_corrupt_sidecar_semantics [3] "c" [1, 2] []).2.2
      (Or.inl (by decide))⟩

/-! ## KeyManager state-machine invariants -/

/-- One public KeyManager operation (with arbitrary passphrases,
randomness and clock values). -/
inductive KMStep (cfg : KMConfig) : KMState → KMState → Prop where
  | init (s : KMState) (p salt : Bytes) (kid now : Nat) :
      KMStep cfg s (initKey cfg s p salt kid now).1
  | unlockStep (s : KMState) (p : Bytes) (v? : Option Nat) (tokIv : Bytes) :
      KMStep cfg s (unlockKM cfg s p v? tokIv).1
  | rotateStep (s : KMState) (oldp newp salt : Bytes) (kid now : Nat)
      (tokIv : Bytes) :
      KMStep cfg s (rotateMasterKey cfg s oldp newp salt kid now tokIv).1

/-- States reachable from a fresh key store by KeyManager operations. -/
inductive KMReachable (cfg : KMConfig) : KMState → Prop where
  | base : KMReachable cfg KMState.empty
  | step {s s' : KMState} : KMReachable cfg s → KMStep cfg s s' →
      KMReachable cfg s'

/-- Number of entries flagged active. -/
def activeLen (l : List VersionEntry) : Nat :=
  (l.filter (fun e => e.is_active)).length

theorem pruneVersions_suffix (cfg : KMConfig) (l : List VersionEntry) :
    pruneVersions cfg l <:+ l := by
  unfold pruneVersions
  by_cases h : l.length > cfg.max_versions
  · rw [if_pos h]
    by_cases h0 : cfg.max_versions = 0
    · rw [if_pos h0]
    · rw [if_neg h0]
      exact ⟨l.take (l.length - cfg.max_versions), List.take_append_drop _ l⟩
  · rw [if_neg h]

theorem pruneVersions_length_le (cfg : KMConfig) (l : List VersionEntry)
    (hmax : 1 ≤ cfg.max_versions) :
    (pruneVersions cfg l).length ≤ cfg.max_versions := by
  by_cases h : l.length > cfg.max_versions
  · rw [pruneVersions, if_pos h, if_neg (by omega)]
    simp
    omega
  · rw [pruneVersions, if_neg h]
    omega

theorem drop_append_of_le {α : Type} (l1 l2 : List α) (k : Nat)
    (h : k ≤ l1.length) : (l1 ++ l2).drop k = l1.drop k ++ l2 := by
  induction l1 generalizing k with
  | nil =>
    have : k = 0 := by simpa using h
    simp [this]
  | cons x r ih =>
    cases k with
    | zero => rfl
    | succ j => exact ih j (by simpa using h)

theorem pruneVersions_concat (cfg : KMConfig) (A : List VersionEntry)
    (x : VersionEntry) :
    ∃ B, pruneVersions cfg (A ++ [x]) = B ++ [x] ∧ ∀ e ∈ B, e ∈ A := by
  by_cases h : (A ++ [x]).length > cfg.max_versions
  · by_cases h0 : cfg.max_versions = 0
    · rw [pruneVersions, if_pos h, if_pos h0]
      exact ⟨A, rfl, fun e he => he⟩
    · rw [pruneVersions, if_pos h, if_neg h0]
      have hk : (A ++ [x]).length - cfg.max_versions ≤ A.length := by
        simp
        omega
      refine ⟨A.drop ((A ++ [x]).length - cfg.max_versions), ?_, ?_⟩
      · exact drop_append_of_le A [x] _ hk
      · intro e he
        have h2 : e ∈ A.take ((A ++ [x]).length - cfg.max_versions) ++
            A.drop ((A ++ [x]).length - cfg.max_versions) :=
          List.mem_append_right _ he
        rwa [List.take_append_drop] at h2
  · rw [pruneVersions, if_neg h]
    exact ⟨A, rfl, fun e he => he⟩

theorem mem_map_deactivate {A : List VersionEntry} {e : VersionEntry}
    (he : e ∈ A.map (fun v => { v with is_active := false })) :
    e.is_active = false := by
  rcases List.mem_map.mp he with ⟨v, _, hv⟩
  rw [← hv]

theorem activeLen_concat_inactive (B : List VersionEntry) (x : VersionEntry)
    (hB : ∀ e ∈ B, e.is_active = false) (hx : x.is_active = true) :
    activeLen (B ++ [x]) = 1 := by
  unfold activeLen
  rw [List.filter_append]
  have h1 : B.filter (fun e => e.is_active) = [] := by
    induction B with
    | nil => rfl
    | cons b r ih =>
      have hb : b.is_active = false := hB b (by simp)
      simp only [List.filter, hb]
      exact ih (fun e he => hB e (by simp [he]))
  rw [h1]
  simp [hx]

/-- The allowed evolution of a persisted version entry: all identity
fields frozen; `is_active` may only be cleared; a verification token
may only appear where none existed. -/
def entryEvolves (e e' : VersionEntry) : Prop :=
  e'.version = e.version ∧ e'.created_at = e.created_at ∧
  e'.key_id = e.key_id ∧ e'.algorithm = e.algorithm ∧ e'.salt = e.salt ∧
  (e'.is_active = e.is_active ∨ e'.is_active = false) ∧
  (e'.verification_token = e.verification_token ∨
    e.verification_token = none)

theorem entryEvolves_refl (e : VersionEntry) : entryEvolves e e :=
  ⟨rfl, rfl, rfl, rfl, rfl, Or.inl rfl, Or.inl rfl⟩

theorem entryEvolves_trans {a b c : VersionEntry}
    (h : entryEvolves a b) (g : entryEvolves b c) : entryEvolves a c := by
  obtain ⟨h1, h2, h3, h4, h5, h6, h7⟩ := h
  obtain ⟨g1, g2, g3, g4, g5, g6, g7⟩ := g
  refine ⟨g1.trans h1, g2.trans h2, g3.trans h3, g4.trans h4,
    g5.trans h5, ?_, ?_⟩
  · rcases g6 with g6 | g6
    · rw [g6]
      exact h6
    · exact Or.inr g6
  · rcases g7 with g7 | g7
    · rw [g7]
      exact h7
    · rcases h7 with h7 | h7
      · rw [← h7]
        exact Or.inr g7
      · exact Or.inr h7

theorem entryEvolves_deactivate (e : VersionEntry) :
    entryEvolves e { e with is_active := false } :=
  ⟨rfl, rfl, rfl, rfl, rfl, Or.inr rfl, Or.inl rfl⟩

theorem entryEvolves_set_token {e : VersionEntry} (tok : Bytes)
    (h : e.verification_token = none) :
    entryEvolves e { e with verification_token := some tok } :=
  ⟨rfl, rfl, rfl, rfl, rfl, Or.inl rfl, Or.inr h⟩

theorem setTokenFirst_length (l : List VersionEntry) (v : Nat) (tok : Bytes) :
    (setTokenFirst l v tok).length = l.length := by
  induction l with
  | nil => rfl
  | cons e r ih =>
    by_cases he : e.version = v
    · simp [setTokenFirst, he]
    · simp [setTokenFirst, he, ih]

theorem activeLen_setTokenFirst (l : List VersionEntry) (v : Nat)
    (tok : Bytes) : activeLen (setTokenFirst l v tok) = activeLen l := by
  induction l with
  | nil => rfl
  | cons e r ih =>
    by_cases he : e.version = v
    · simp [setTokenFirst, he, activeLen, List.filter]
      cases e.is_active <;> simp
    · simp only [setTokenFirst, if_neg he]
      simp only [activeLen, List.filter]
      cases e.is_active <;> simp [activeLen] at ih ⊢ <;> omega

theorem setTokenFirst_mem_of_find (l : List VersionEntry) (v : Nat)
    (tok : Bytes) (e : VersionEntry)
    (hf : l.find? (fun x => x.version == v) = some e) :
    ∀ e' ∈ setTokenFirst l v tok,
      e' ∈ l ∨ e' = { e with verification_token := some tok } := by
  induction l with
  | nil =>
    intro e' he'
    simp [setTokenFirst] at he'
  | cons x r ih =>
    intro e' he'
    by_cases hx : x.version = v
    · have hfx : (x.version == v) = true := by simp [hx]
      simp only [List.find?, hfx] at hf
      have hex : x = e := Option.some_injective _ hf
      rw [setTokenFirst, if_pos hx] at he'
      rcases List.mem_cons.mp he' with h | h
      · right
        rw [h, hex]
      · left
        exact List.mem_cons_of_mem _ h
    · have hfx : (x.version == v) = false := by simp [hx]
      simp only [List.find?, hfx] at hf
      rw [setTokenFirst, if_neg hx] at he'
      rcases List.mem_cons.mp he' with h | h
      · left
        rw [h]
        exact List.mem_cons_self _ _
      · rcases ih hf e' h with h2 | h2
        · left
          exact List.mem_cons_of_mem _ h2
        · right
          exact h2

theorem initKey_activeLen (cfg : KMConfig) (s : KMState) (p salt : Bytes)
    (kid now : Nat) :
    activeLen (initKey cfg s p salt kid now).1.metadata.versions = 1 := by
  obtain ⟨B, hB, hmem⟩ := pruneVersions_concat cfg
    (s.metadata.versions.map (fun v => { v with is_active := false }))
    (initKey cfg s p salt kid now).2
  show activeLen (pruneVersions cfg
    (s.metadata.versions.map (fun v => { v with is_active := false }) ++
      [(initKey cfg s p salt kid now).2])) = 1
  rw [hB]
  exact activeLen_concat_inactive B _
    (fun e he => mem_map_deactivate (hmem e he)) rfl

theorem initKey_length_le (cfg : KMConfig) (s : KMState) (p salt : Bytes)
    (kid now : Nat) (hmax : 1 ≤ cfg.max_versions) :
    (initKey cfg s p salt kid now).1.metadata.versions.length ≤
      cfg.max_versions :=
  pruneVersions_length_le cfg _ hmax

theorem initKey_versions_ne_nil (cfg : KMConfig) (s : KMState)
    (p salt : Bytes) (kid now : Nat) :
    (initKey cfg s p salt kid now).1.metadata.versions ≠ [] := by
  obtain ⟨B, hB, _⟩ := pruneVersions_concat cfg
    (s.metadata.versions.map (fun v => { v with is_active := false }))
    (initKey cfg s p salt kid now).2
  show pruneVersions cfg
    (s.metadata.versions.map (fun v => { v with is_active := false }) ++
      [(initKey cfg s p salt kid now).2]) ≠ []
  rw [hB]
  simp

theorem initKey_entry_evolution (cfg : KMConfig) (s : KMState)
    (p salt : Bytes) (kid now : Nat) :
    ∀ e' ∈ (initKey cfg s p salt kid now).1.metadata.versions,
      (∃ e ∈ s.metadata.versions, entryEvolves e e') ∨
      (e'.is_active = true ∧ e'.verification_token = none) := by
  intro e' he'
  obtain ⟨B, hB, hmem⟩ := pruneVersions_concat cfg
    (s.metadata.versions.map (fun v => { v with is_active := false }))
    (initKey cfg s p salt kid now).2
  have he2 : e' ∈ B ++ [(initKey cfg s p salt kid now).2] := by
    rw [← hB]
    exact he'
  rcases List.mem_append.mp he2 with h | h
  · rcases List.mem_map.mp (hmem e' h) with ⟨e, hel, hee⟩
    left
    refine ⟨e, hel, ?_⟩
    rw [← hee]
    exact entryEvolves_deactivate e
  · right
    have : e' = (initKey cfg s p salt kid now).2 := by simpa using h
    rw [this]
    exact ⟨rfl, rfl⟩

theorem unlockKM_metadata_cases (cfg : KMConfig) (s : KMState) (p : Bytes)
    (v? : Option Nat) (tokIv : Bytes) :
    (unlockKM cfg s p v? tokIv).1.metadata = s.metadata ∨
    ∃ v tok e, s.metadata.versions.find? (fun x => x.version == v) = some e ∧
      e.verification_token = none ∧
      (unlockKM cfg s p v? tokIv).1.metadata =
        { s.metadata with
          versions := setTokenFirst s.metadata.versions v tok } := by
  unfold unlockKM
  by_cases h0 : s.metadata.versions = []
  · rw [if_pos h0]
    exact Or.inl rfl
  · rw [if_neg h0]
    rcases hf : s.metadata.versions.find?
        (fun x => x.version == v?.getD (s.metadata.active_version.getD 1))
      with _ | e
    · simp only [hf]
      exact Or.inl trivial
    · simp only [hf]
      rcases ht : e.verification_token with _ | tok
      · simp only [ht]
        exact Or.inr ⟨v?.getD (s.metadata.active_version.getD 1), _, e, hf,
          ht, rfl⟩
      · simp only [ht]
        rcases hd : aesgcmDecrypt (deriveKey cfg.kdf_iterations p e.salt)
            (tok.take cfg.iv_length) (tok.drop cfg.iv_length) with _ | u
        · simp only [hd]
          exact Or.inl trivial
        · simp only [hd]
          exact Or.inl trivial

theorem unlockKM_versions_stats (cfg : KMConfig) (s : KMState) (p : Bytes)
    (v? : Option Nat) (tokIv : Bytes) :
    activeLen (unlockKM cfg s p v? tokIv).1.metadata.versions =
      activeLen s.metadata.versions ∧
    (unlockKM cfg s p v? tokIv).1.metadata.versions.length =
      s.metadata.versions.length := by
  rcases unlockKM_metadata_cases cfg s p v? tokIv with hm | ⟨v, tok, e, _, _, hm⟩
  · rw [hm]
    exact ⟨rfl, rfl⟩
  · rw [hm]
    exact ⟨activeLen_setTokenFirst _ _ _, setTokenFirst_length _ _ _⟩

theorem unlockKM_entry_evolution (cfg : KMConfig) (s : KMState) (p : Bytes)
    (v? : Option Nat) (tokIv : Bytes) :
    ∀ e' ∈ (unlockKM cfg s p v? tokIv).1.metadata.versions,
      ∃ e ∈ s.metadata.versions, entryEvolves e e' := by
  rcases unlockKM_metadata_cases cfg s p v? tokIv with hm |
    ⟨v, tok, e, hf, htok, hm⟩
  · intro e' he'
    rw [hm] at he'
    exact ⟨e', he', entryEvolves_refl e'⟩
  · intro e' he'
    rw [hm] at he'
    rcases setTokenFirst_mem_of_find _ v tok e hf e' he' with h | h
    · exact ⟨e', h, entryEvolves_refl e'⟩
    · have hemem : e ∈ s.metadata.versions := List.mem_of_find?_eq_some hf
      refine ⟨e, hemem, ?_⟩
      rw [h]
      exact entryEvolves_set_token tok htok

theorem rotateMasterKey_fst_cases (cfg : KMConfig) (s : KMState)
    (oldp newp salt : Bytes) (kid now : Nat) (tokIv : Bytes) :
    (rotateMasterKey cfg s oldp newp salt kid now tokIv).1 =
      (initKey cfg s newp salt kid now).1 ∨
    (rotateMasterKey cfg s oldp newp salt kid now tokIv).1 =
      (unlockKM cfg s oldp s.metadata.active_version tokIv).1 ∨
    (rotateMasterKey cfg s oldp newp salt kid now tokIv).1 =
      (initKey cfg (unlockKM cfg s oldp s.metadata.active_version tokIv).1
        newp salt kid now).1 := by
  simp only [rotateMasterKey]
  cases hn : (match s.metadata.active_version with
      | none => true
      | some v => (cacheLookup s.master_keys v).isNone) with
  | false => simp
  | true =>
    cases hok : (unlockKM cfg s oldp s.metadata.active_version tokIv).2 with
    | false => simp [hok]
    | true => simp [hok]

theorem kmStep_entry_evolution {cfg : KMConfig} {s s' : KMState}
    (hstep : KMStep cfg s s') :
    ∀ e' ∈ s'.metadata.versions,
      (∃ e ∈ s.metadata.versions, entryEvolves e e') ∨
      (e'.is_active = true ∧ e'.verification_token = none) := by
  cases hstep with
  | init p salt kid now => exact initKey_entry_evolution cfg s p salt kid now
  | unlockStep p v? tokIv =>
    intro e' he'
    rcases unlockKM_entry_evolution cfg s p v? tokIv e' he' with ⟨e, he, hev⟩
    exact Or.inl ⟨e, he, hev⟩
  | rotateStep oldp newp salt kid now tokIv =>
    rcases rotateMasterKey_fst_cases cfg s oldp newp salt kid now tokIv with
      hc | hc | hc <;> rw [hc]
    · exact initKey_entry_evolution cfg s newp salt kid now
    · intro e' he'
      rcases unlockKM_entry_evolution cfg s oldp
          s.metadata.active_version tokIv e' he' with ⟨e, he, hev⟩
      exact Or.inl ⟨e, he, hev⟩
    · intro e' he'
      rcases initKey_entry_evolution cfg _ newp salt kid now e' he' with
        ⟨e1, he1, hev1⟩ | hfresh
      · rcases unlockKM_entry_evolution cfg s oldp
            s.metadata.active_version tokIv e1 he1 with ⟨e0, he0, hev0⟩
        exact Or.inl ⟨e0, he0, entryEvolves_trans hev0 hev1⟩
      · exact Or.inr hfresh

theorem kmReachable_activeLen {cfg : KMConfig} {s : KMState}
    (h : KMReachable cfg s) :
    s.metadata.versions = [] ∨ activeLen s.metadata.versions = 1 := by
  induction h with
  | base => exact Or.inl rfl
  | step hr hstep ih =>
    rename_i s0 s1
    cases hstep with
    | init p salt kid now =>
      exact Or.inr (initKey_activeLen cfg s0 p salt kid now)
    | unlockStep p v? tokIv =>
      obtain ⟨ha, hl⟩ := unlockKM_versions_stats cfg s0 p v? tokIv
      rcases ih with ih | ih
      · left
        have h0 : (unlockKM cfg s0 p v? tokIv).1.metadata.versions.length = 0 := by
          rw [hl, ih]
          rfl
        exact List.length_eq_zero.mp h0
      · right
        rw [ha, ih]
    | rotateStep oldp newp salt kid now tokIv =>
      rcases rotateMasterKey_fst_cases cfg s0 oldp newp salt kid now tokIv with
        hc | hc | hc <;> rw [hc]
      · exact Or.inr (initKey_activeLen cfg s0 newp salt kid now)
      · obtain ⟨ha, hl⟩ := unlockKM_versions_stats cfg s0 oldp
          s0.metadata.active_version tokIv
        rcases ih with ih | ih
        · left
          have h0 : (unlockKM cfg s0 oldp
              s0.metadata.active_version tokIv).1.metadata.versions.length = 0 := by
            rw [hl, ih]
            rfl
          exact List.length_eq_zero.mp h0
        · right
          rw [ha, ih]
      · exact Or.inr (initKey_activeLen cfg _ newp salt kid now)

theorem kmReachable_length_le {cfg : KMConfig} {s : KMState}
    (h : KMReachable cfg s) (hmax : 1 ≤ cfg.max_versions) :
    s.metadata.versions.length ≤ cfg.max_versions := by
  induction h with
  | base => exact Nat.zero_le _
  | step hr hstep ih =>
    rename_i s0 s1
    cases hstep with
    | init p salt kid now => exact initKey_length_le cfg s0 p salt kid now hmax
    | unlockStep p v? tokIv =>
      obtain ⟨_, hl⟩ := unlockKM_versions_stats cfg s0 p v? tokIv
      rw [hl]
      exact ih
    | rotateStep oldp newp salt kid now tokIv =>
      rcases rotateMasterKey_fst_cases cfg s0 oldp newp salt kid now tokIv with
        hc | hc | hc <;> rw [hc]
      · exact initKey_length_le cfg s0 newp salt kid now hmax
      · obtain ⟨_, hl⟩ := unlockKM_versions_stats cfg s0 oldp
          s0.metadata.active_version tokIv
        rw [hl]
        exact ih
      · exact initKey_length_le cfg _ newp salt kid now hmax

/-- C6 (counterexample): the first `unlock` after `initialize` mutates
the stored version entry — its verification_token appears — while its
version and is_active flag are unchanged, so entries are mutated beyond
mere deactivation. -/
theorem C6_counterexample_token_mutation :
    (sW.metadata.versions.map (fun e => e.verification_token.isSome) =
      [false]) ∧
    ((unlockKM cfgW sW [1] none []).1.metadata.versions.map
      (fun e => e.verification_token.isSome) = [true]) ∧
    ((unlockKM cfgW sW [1] none []).1.metadata.versions.map
      (fun e => (e.version, e.is_active)) =
      sW.metadata.versions.map (fun e => (e.version, e.is_active))) := by
  decide

/-- C6 (amended): once the store is non-empty exactly one version entry
is active after every KeyManager operation, and each operation mutates
existing entries only by clearing is_active or by adding a
verification_token where none existed (new entries are created active
and token-less). -/
theorem C6_active_unique_and_mutation_discipline (cfg : KMConfig) :
    (∀ s, KMReachable cfg s →
      s.metadata.versions = [] ∨ activeLen s.metadata.versions = 1) ∧
    (∀ s s2, KMStep cfg s s2 → ∀ e2 ∈ s2.metadata.versions,
      (∃ e ∈ s.metadata.versions, entryEvolves e e2) ∨
      (e2.is_active = true ∧ e2.verification_token = none)) :=
  ⟨fun _ hs => kmReachable_activeLen hs,
   fun _ _ hstep => kmStep_entry_evolution hstep⟩

/-- Witness for C6's amended statement on a concrete reachable state
and a concrete step. -/
theorem C6_active_unique_and_mutation_discipline_witness :
    (sW.metadata.versions = [] ∨ activeLen sW.metadata.versions = 1) ∧
    (∀ e2 ∈ sW.metadata.versions,
      (∃ e ∈ KMState.empty.metadata.versions, entryEvolves e e2) ∨
      (e2.is_active = true ∧ e2.verification_token = none)) :=
  ⟨(C6_active_unique_and_mutation_discipline cfgW).1 sW
      (KMReachable.step KMReachable.base
        (KMStep.init KMState.empty [1] [] 2 3)),
   (C6_active_unique_and_mutation_discipline cfgW).2 KMState.empty sW
      (KMStep.init KMState.empty [1] [] 2 3)⟩

/-- C7: every state reachable by KeyManager operations holds at most
`max_versions` version entries (for any positive configured maximum),
and pruning keeps a suffix of the entry list — it discards the oldest
entries first. -/
theorem C7_prune_bound_and_oldest_first (cfg : KMConfig) :
    (∀ s, KMReachable cfg s → 1 ≤ cfg.max_versions →
      s.metadata.versions.length ≤ cfg.max_versions) ∧
    (∀ l : List VersionEntry, pruneVersions cfg l <:+ l) :=
  ⟨fun _ hs hmax => kmReachable_length_le hs hmax,
   fun l => pruneVersions_suffix cfg l⟩

/-- Witness for C7 on a concrete two-`initialize` run. -/
theorem C7_prune_bound_and_oldest_first_witness :
    s2W.metadata.versions.length ≤ cfgW.max_versions ∧
    pruneVersions cfgW s2W.metadata.versions <:+ s2W.metadata.versions :=
  ⟨(C7_prune_bound_and_oldest_first cfgW).1 s2W
      (KMReachable.step
        (KMReachable.step KMReachable.base
          (KMStep.init KMState.empty [1] [] 2 3))
        (KMStep.init sW [2] [7] 4 5))
      (by decide),
   (C7_prune_bound_and_oldest_first cfgW).2 s2W.metadata.versions⟩
